import Mathlib

/- Verification of the social-auto-upload core against its specification.

   The development shallowly embeds the two source files:
   * `video_preprocessor.py` — the Metadata Normalizer: `_clean_filename`,
     `_get_video_description`, `_translate_text`, `process_directory`;
   * `cli_main.py` — the Task Router: `parse_schedule`, `get_video_files`,
     and the `upload` branch of `main`.

   Strings are modelled as `List Char` in the string-processing core (Python
   `str` is a sequence of code points, as is `List Char`); file paths stay
   `String`.  External collaborators (the OpenAI text service, the platform
   adapters, the filesystem, `get_title_and_hashtags`) are modelled as
   explicit oracles passed in, and effects are modelled as event traces. -/

/-! ## Python character classes

`re.escape` (Python >= 3.7) escapes exactly the characters of
`_special_chars_map`; `\s` / `str.strip()` whitespace is modelled by its
ASCII part (non-ASCII whitespace does not occur in the claims); `\w` is
modelled as ASCII word characters plus every non-ASCII code point (Python's
unicode `\w` covers the CJK letters that occur in this repository; the
claims never depend on a non-ASCII character being dropped). -/

def pySpecialChars : List Char :=
  ['(', ')', '[', ']', Char.ofNat 123, Char.ofNat 125, '?', '*', '+', '-',
   '|', '^', '$', '\\', '.', '&', '~', '#', ' ', '\t', '\n', '\r',
   Char.ofNat 11, Char.ofNat 12]

def pySpecial (c : Char) : Bool := pySpecialChars.contains c

def pySpace (c : Char) : Bool :=
  c = ' ' || c = '\t' || c = '\n' || c = '\r' || c = Char.ofNat 11 || c = Char.ofNat 12

def pyWordChar (c : Char) : Bool :=
  ('a' ≤ c && c ≤ 'z') || ('A' ≤ c && c ≤ 'Z') || ('0' ≤ c && c ≤ '9') ||
    c = '_' || 127 < c.toNat

/-- The character class kept by `re.sub(r'[^\w\s\-\.]', '', name)`. -/
def keepChar (c : Char) : Bool :=
  pyWordChar c || pySpace c || c = '-' || c = '.'

/-- Python `str.strip()` (both-ends whitespace trim). -/
def trimWS (l : List Char) : List Char :=
  List.rdropWhile pySpace (List.dropWhile pySpace l)

/-! ## The wildcard-pattern regex compilation of `_clean_filename`

Source (`video_preprocessor.py` lines 97-102):
```
regex_pattern = pattern.replace('*', '.*?')
regex_pattern = re.escape(regex_pattern).replace(r'\.\*\?', '.*?')
name = re.sub(regex_pattern, '', name)
```
`replaceStar` models `pattern.replace('*', '.*?')` (every `'*'` replaced);
`escapeL` models `re.escape`; `unescTriple` models
`.replace('\\.\\*\\?', '.*?')` (left-to-right, non-overlapping). -/

def replaceStar : List Char → List Char
  | [] => []
  | c :: t => if c = '*' then '.' :: '*' :: '?' :: replaceStar t else c :: replaceStar t

def escChar (c : Char) : List Char := if pySpecial c then ['\\', c] else [c]

def escapeL : List Char → List Char
  | [] => []
  | c :: t => escChar c ++ escapeL t

def unescTriple : List Char → List Char
  | '\\' :: '.' :: '\\' :: '*' :: '\\' :: '?' :: t => '.' :: '*' :: '?' :: unescTriple t
  | c :: t => c :: unescTriple t
  | [] => []

/-- The regex string the source compiles for a wildcard pattern. -/
def codeRegex (p : List Char) : List Char := unescTriple (escapeL (replaceStar p))

/-- Split on the wildcard token, as the spec's construction prescribes. -/
def splitStar : List Char → List (List Char)
  | [] => [[]]
  | c :: t =>
    if c = '*' then [] :: splitStar t
    else
      match splitStar t with
      | [] => [[c]]
      | s :: ss => (c :: s) :: ss

/-- Join segments with the non-greedy match-any rule `.*?`. -/
def joinNonGreedy : List (List Char) → List Char
  | [] => []
  | [x] => x
  | x :: r => x ++ '.' :: '*' :: '?' :: joinNonGreedy r

/-- The spec's construction: split the pattern on the wildcard, escape each
literal segment, and join the segments with the non-greedy match-any rule. -/
def specRegex (p : List Char) : List Char :=
  joinNonGreedy ((splitStar p).map escapeL)

/-! ## Leftmost, shortest (non-greedy) matching of the compiled pattern

The compiled regex has the shape `lit₀.*?lit₁.*?…litₖ` with every `litᵢ` a
`re.escape`d literal (proved below: `codeRegex_eq_specRegex`).  Its `re.sub`
semantics is leftmost matching with each gap as short as possible, a gap
never crossing a newline (`.` does not match `'\n'`).  `gapTo seg s`
consumes the shortest newline-free gap followed by `seg`; `matchSegs` tries
a whole match at the current position; `subW` is the global substitution
with the empty replacement, advancing one character on a failed or empty
match (Python's empty-match rule for `re.sub`).  `subWF` carries fuel, one
character of input per unit; `s.length + 1` units always suffice because
every step either consumes input or ends the recursion. -/

def gapTo (seg : List Char) : List Char → Option (List Char)
  | [] => if seg.isEmpty then some [] else none
  | c :: t =>
    if seg.isPrefixOf (c :: t) then some (List.drop seg.length (c :: t))
    else if c = '\n' then none
    else gapTo seg t

def matchTail : List (List Char) → List Char → Option (List Char)
  | [], s => some s
  | seg :: rest, s => (gapTo seg s).bind (matchTail rest)

def matchSegs : List (List Char) → List Char → Option (List Char)
  | [], s => some s
  | seg :: rest, s =>
    if seg.isPrefixOf s then matchTail rest (List.drop seg.length s) else none

def subWF : Nat → List (List Char) → List Char → List Char
  | 0, _, s => s
  | fuel + 1, segs, s =>
    match matchSegs segs s with
    | some rest =>
      if rest.length = s.length then
        match s with
        | [] => []
        | c :: t => c :: subWF fuel segs t
      else subWF fuel segs rest
    | none =>
      match s with
      | [] => []
      | c :: t => c :: subWF fuel segs t

/-- `re.sub(compiled_wildcard_pattern, '', s)`. -/
def subW (segs : List (List Char)) (s : List Char) : List Char :=
  subWF (s.length + 1) segs s

/-- True when the wildcard pattern matches somewhere in `s`. -/
def hasWMatch (segs : List (List Char)) : List Char → Bool
  | [] => (matchSegs segs []).isSome
  | c :: t => (matchSegs segs (c :: t)).isSome || hasWMatch segs (c :: t).tail

/-! ## Literal substring deletion: `name.replace(pattern, '')` -/

def replAllF : Nat → List Char → List Char → List Char
  | 0, _, s => s
  | _ + 1, _, [] => []
  | fuel + 1, pat, c :: t =>
    if pat.isPrefixOf (c :: t) then replAllF fuel pat (List.drop pat.length (c :: t))
    else c :: replAllF fuel pat t

/-- Python `s.replace(pat, '')`: all occurrences deleted left-to-right,
non-overlapping; an empty pattern leaves the string unchanged. -/
def replaceAllL (pat s : List Char) : List Char :=
  if pat.isEmpty then s else replAllF (s.length + 1) pat s

/-- True when `pat` occurs as a contiguous substring of `s`. -/
def occursSub (pat : List Char) : List Char → Bool
  | [] => pat.isEmpty
  | c :: t => pat.isPrefixOf (c :: t) || occursSub pat (c :: t).tail

/-- The remove-pattern `pat` matches nowhere in `s` (an empty literal
pattern is a no-op of `str.replace` and counts as matching nowhere). -/
def patNoMatch (pat s : List Char) : Bool :=
  if pat.contains '*' then !(hasWMatch (splitStar pat) s)
  else pat.isEmpty || !(occursSub pat s)

/-! ## The Metadata Normalizer (`video_preprocessor.py`)

`NormConfig` models the configuration the constructor loads from
`config.yml` (`remove_patterns`, `translate_to_chinese`,
`max_filename_length` with its `.get` default of 100, `video_directory`).
The text services are oracles `List Char → Option (List Char)`: `none`
models the network call raising, which both `_translate_text` and
`_get_video_description` catch internally. -/

structure NormConfig where
  remove_patterns : List (List Char)
  translate_to_chinese : Bool
  max_filename_length : Nat
  video_directory : String

structure NormOracles where
  svcTranslate : List Char → Option (List Char)
  svcDescribe : List Char → Option (List Char)
  renameFails : String → String → Bool
  writeFails : String → Bool

/-- One pass of the pattern-removal loop body: the wildcard branch compiles
the pattern and deletes every regex match (`subW` of the split segments; by
`codeRegex_eq_specRegex` below the compiled regex is exactly the escaped
segments joined by non-greedy gaps); the literal branch is
`name.replace(pattern, '')`. -/
def removeOnePattern (name pat : List Char) : List Char :=
  if pat.contains '*' then subW (splitStar pat) name else replaceAllL pat name

def removePatterns (pats : List (List Char)) (name : List Char) : List Char :=
  pats.foldl removeOnePattern name

/-- `_translate_text`: on service success the response is `.strip()`ped; on
any exception the original text is returned. -/
def _translate_text (svc : List Char → Option (List Char)) (text : List Char) : List Char :=
  match svc text with
  | some r => trimWS r
  | none => text

/-- `_get_video_description`: on service success the response is
`.strip()`ped; on any exception the fallback `"无法生成描述: <name>"`. -/
def _get_video_description (svc : List Char → Option (List Char))
    (video_name : List Char) : List Char :=
  match svc video_name with
  | some r => trimWS r
  | none => "无法生成描述: ".toList ++ video_name

/-- `_clean_filename` up to (and excluding) the final length truncation and
trim: pattern removal, optional translation, special-character stripping. -/
def cleanCore (cfg : NormConfig) (svcT : List Char → Option (List Char))
    (filename : List Char) : List Char :=
  let name := removePatterns cfg.remove_patterns filename
  let name := if cfg.translate_to_chinese then _translate_text svcT name else name
  name.filter keepChar

/-- The length-limiting step `if len(name) > max_length: name = name[:max_length]`. -/
def truncTo (maxLen : Nat) (name : List Char) : List Char :=
  if maxLen < name.length then name.take maxLen else name

/-- `_clean_filename` (`video_preprocessor.py` lines 91-119). -/
def _clean_filename (cfg : NormConfig) (svcT : List Char → Option (List Char))
    (filename : List Char) : List Char :=
  trimWS (truncTo cfg.max_filename_length (cleanCore cfg svcT filename))

/-! ### `process_directory`

The filesystem is a snapshot: `files` are the existing regular files,
`dirs` the existing directories, each addressed by a `/`-separated path.
`pathlib` iteration order over a directory is unspecified; the model uses
the order of `FS.files`.  Effects are returned as an event trace; the `try`
body of the per-file loop is `processOneE` (an `Except`, its `error` being
an uncaught exception of the body) and the `except` clause is `handleOne`. -/

structure FS where
  files : List String
  dirs : List String

/-- Split a path into its `/`-separated components. -/
def splitSlash : List Char → List (List Char)
  | [] => [[]]
  | c :: t =>
    if c = '/' then [] :: splitSlash t
    else
      match splitSlash t with
      | [] => [[c]]
      | s :: ss => (c :: s) :: ss

def splitPath (p : String) : List (List Char) := splitSlash p.toList

def joinSlash : List (List Char) → List Char
  | [] => []
  | [x] => x
  | x :: r => x ++ '/' :: joinSlash r

def fileNameOf (p : String) : List Char := (splitPath p).getLastD []

def parentStr (p : String) : String := (joinSlash (splitPath p).dropLast).asString

/-- `f` is directly (non-recursively) inside directory `d`. -/
def directlyUnder (d f : String) : Bool :=
  (splitPath f).dropLast == splitPath d && fileNameOf f ≠ []

/-- `f` is anywhere strictly below directory `d` (the `**` glob). -/
def underDir (d f : String) : Bool :=
  (splitPath d).isPrefixOf (splitPath f) && splitPath f ≠ splitPath d

def strEndsWith (s : String) (suffix : List Char) : Bool := suffix.isSuffixOf s.toList

/-- `Path.stem`: the name cut at its last dot, provided that dot is neither
the first nor the last character. -/
def stemOf (l : List Char) : List Char :=
  let a := l.reverse.takeWhile (fun c => c ≠ '.')
  if a.length + 1 < l.length ∧ 1 ≤ a.length then l.take (l.length - a.length - 1) else l

/-- `Path.suffix` of a file name (the part `stemOf` cuts, or empty). -/
def suffixOfName (n : List Char) : List Char := n.drop (stemOf n).length

/-- `video_dir.glob("*.mp4")`: entries directly under the directory whose
name matches the (case-sensitive on POSIX) pattern, restricted to regular
files; matching directory entries are outside this model's scope. -/
def mp4Glob (dir : String) (fs : FS) : List String :=
  fs.files.filter (fun f => directlyUnder dir f && strEndsWith f (".mp4".toList))

inductive NormEv where
  | renameFile (src dst : String)
  | writeSidecar (path : String) (content : List Char)
  | logProcError (file : String)
deriving DecidableEq, Repr

def cleanedStem (cfg : NormConfig) (orc : NormOracles) (f : String) : List Char :=
  _clean_filename cfg orc.svcTranslate (stemOf (fileNameOf f))

def newPathOf (cfg : NormConfig) (orc : NormOracles) (f : String) : String :=
  parentStr f ++ "/" ++ (cleanedStem cfg orc f).asString ++ ".mp4"

def txtPathOf (cfg : NormConfig) (orc : NormOracles) (f : String) : String :=
  parentStr f ++ "/" ++ (cleanedStem cfg orc f).asString ++ ".txt"

/-- The `try` body of the per-file loop (`process_directory` lines 130-152):
rename when the cleaned name differs, then generate the description
(internally fail-soft, see `_get_video_description`) and write the sidecar.
Returns the effects performed and whether the body raised; an exception
keeps the effects that preceded it. -/
def processOneRun (cfg : NormConfig) (orc : NormOracles) (f : String) : List NormEv × Bool :=
  if f ≠ newPathOf cfg orc f then
    if orc.renameFails f (newPathOf cfg orc f) then ([], true)
    else if orc.writeFails (txtPathOf cfg orc f) then
      ([NormEv.renameFile f (newPathOf cfg orc f)], true)
    else
      ([NormEv.renameFile f (newPathOf cfg orc f),
        NormEv.writeSidecar (txtPathOf cfg orc f)
          (_get_video_description orc.svcDescribe (cleanedStem cfg orc f))], false)
  else if orc.writeFails (txtPathOf cfg orc f) then ([], true)
  else
    ([NormEv.writeSidecar (txtPathOf cfg orc f)
      (_get_video_description orc.svcDescribe (cleanedStem cfg orc f))], false)

/-- The per-file loop body together with its `except` clause: any exception
is caught and logged, and the loop continues. -/
def handleOne (cfg : NormConfig) (orc : NormOracles) (f : String) : List NormEv :=
  if (processOneRun cfg orc f).2 then (processOneRun cfg orc f).1 ++ [NormEv.logProcError f]
  else (processOneRun cfg orc f).1

def processFiles (cfg : NormConfig) (orc : NormOracles) (files : List String) : List NormEv :=
  (files.map (handleOne cfg orc)).flatten

/-- `process_directory` (`video_preprocessor.py` lines 121-155). -/
def process_directory (cfg : NormConfig) (orc : NormOracles) (fs : FS) : List NormEv :=
  if fs.dirs.contains cfg.video_directory then
    processFiles cfg orc (mp4Glob cfg.video_directory fs)
  else []

/-! ## The Schedule Parser (`cli_main.py` lines 18-23)

`strptimeYmdHM` models CPython's
`datetime.strptime(s, '%Y-%m-%d %H:%M')`: the compiled pattern is
`(?P<Y>\d\d\d\d)-(?P<m>1[0-2]|0[1-9]|[1-9])-(?P<d>3[0-1]|[1-2]\d|0[1-9]|[1-9]| [1-9])\s+(?P<H>2[0-3]|[0-1]\d|\d):(?P<M>[0-5]\d|\d)`
matched against the whole string, followed by the `datetime` constructor's
range checks (year >= 1, day within the month, leap years).  Because every
field is followed by a non-digit, the regex's backtracking is equivalent to
reading each field as a maximal digit run and checking it against the
alternatives, which is how the model reads them. -/

structure PyDateTime where
  year : Nat
  month : Nat
  day : Nat
  hour : Nat
  minute : Nat
deriving DecidableEq, Repr

def digitsVal (l : List Char) : Nat :=
  l.foldl (fun a c => a * 10 + (c.toNat - 48)) 0

def isLeap (y : Nat) : Bool := y % 4 = 0 && (y % 100 ≠ 0 || y % 400 = 0)

def daysInMonth (y m : Nat) : Nat :=
  if m = 2 then (if isLeap y then 29 else 28)
  else if m = 4 || m = 6 || m = 9 || m = 11 then 30
  else 31

/-- Read the day field after the month's `'-'`: either a digit run, or the
`' [1-9]'` alternative (a single space then one nonzero digit). Returns the
field's digits and the rest; the space form is tagged by the Bool. -/
def readDayField (r : List Char) : Bool × List Char × List Char :=
  match r with
  | ' ' :: c :: t => if c.isDigit then (true, [c], t) else (false, r.takeWhile Char.isDigit, r.dropWhile Char.isDigit)
  | _ => (false, r.takeWhile Char.isDigit, r.dropWhile Char.isDigit)

def strptimeYmdHM (s : List Char) : Option PyDateTime :=
  let yd := s.takeWhile Char.isDigit
  let r1 := s.dropWhile Char.isDigit
  if yd.length ≠ 4 then none else
  match r1 with
  | '-' :: r2 =>
    let md := r2.takeWhile Char.isDigit
    let r3 := r2.dropWhile Char.isDigit
    let m := digitsVal md
    if ¬ (md.length = 1 ∧ 1 ≤ m ∨ md.length = 2 ∧ 1 ≤ m ∧ m ≤ 12) then none else
    match r3 with
    | '-' :: r4 =>
      let df := readDayField r4
      let dd := df.2.1
      let r5 := df.2.2
      let d := digitsVal dd
      if ¬ (df.1 = true ∧ 1 ≤ d ∨ df.1 = false ∧ (dd.length = 1 ∧ 1 ≤ d ∨ dd.length = 2 ∧ 1 ≤ d ∧ d ≤ 31)) then none else
      let ws := r5.takeWhile pySpace
      let r6 := r5.dropWhile pySpace
      if ws.isEmpty then none else
      let hd := r6.takeWhile Char.isDigit
      let r7 := r6.dropWhile Char.isDigit
      let h := digitsVal hd
      if ¬ (hd.length = 1 ∨ hd.length = 2 ∧ h ≤ 23) then none else
      match r7 with
      | ':' :: r8 =>
        let mind := r8.takeWhile Char.isDigit
        let r9 := r8.dropWhile Char.isDigit
        let mi := digitsVal mind
        if ¬ (mind.length = 1 ∨ mind.length = 2 ∧ mi ≤ 59) then none else
        if ¬ r9.isEmpty then none else
        let y := digitsVal yd
        if 1 ≤ y ∧ 1 ≤ m ∧ m ≤ 12 ∧ 1 ≤ d ∧ d ≤ daysInMonth y m ∧ h ≤ 23 ∧ mi ≤ 59 then
          some ⟨y, m, d, h, mi⟩
        else none
      | _ => none
    | _ => none
  | _ => none

/-- `parse_schedule` (`cli_main.py` lines 18-23): a falsy argument (absent,
or the empty string) yields `None`, the immediate sentinel of the spec; a
parse failure raises `ValueError` (modelled as `.error`). -/
def parse_schedule (schedule_raw : Option String) : Except Unit (Option PyDateTime) :=
  match schedule_raw with
  | none => Except.ok none
  | some s =>
    if s = "" then Except.ok none
    else
      match strptimeYmdHM s.toList with
      | some dt => Except.ok (some dt)
      | none => Except.error ()

/-- The literally-read shape `"YYYY-MM-DD HH:MM"` of the claim: four digits,
`'-'`, two digits, `'-'`, two digits, one space, two digits, `':'`, two
digits.  (Stated from the spec's words, for comparison with the code.) -/
def matchesFixedFormat (s : String) : Bool :=
  match s.toList with
  | [y1, y2, y3, y4, s1, m1, m2, s2, d1, d2, s3, h1, h2, s4, n1, n2] =>
    y1.isDigit && y2.isDigit && y3.isDigit && y4.isDigit && s1 = '-' &&
    m1.isDigit && m2.isDigit && s2 = '-' && d1.isDigit && d2.isDigit &&
    s3 = ' ' && h1.isDigit && h2.isDigit && s4 = ':' && n1.isDigit && n2.isDigit
  | _ => false

/-! ## The Task Router (`cli_main.py`, `upload` action)

`Platform` is the supported enum; the adapters are oracles: `titleOf`
models `get_title_and_hashtags`, `setupFails i` / `jobFails i` say whether
the adapter's session establishment / `app.main()` of the i-th batch item
raises.  `Pub` is the publish argument: the immediate sentinel `0`, a
parsed instant, or Python `None` (reachable only from a falsy schedule).
The run of the upload action is a trace of events plus an optional abort
(an uncaught exception). -/

inductive Platform where
  | douyin
  | tiktok
  | tencent
  | kuaishou
deriving DecidableEq, Repr

inductive Pub where
  | immediate
  | scheduledAt (dt : PyDateTime)
  | pyNone
deriving DecidableEq, Repr

inductive RouterEv where
  | titleExtract (path : String)
  | sessionSetup (p : Platform) (interactive : Bool)
  | buildJob (title : String) (path : String) (tags : List String) (pub : Pub)
      (extra : Option Unit)
  | runJob (path : String)
  | jobDone (path : String)
deriving DecidableEq, Repr

inductive UploadErr where
  | dirNotFound (d : String)
  | noVideos (d : String)
  | fileNotFound (f : String)
  | missingSchedule
  | formatError
  | platformSetup
  | platformJob
deriving DecidableEq, Repr

structure CliArgs where
  platform : Platform
  account_name : String
  files : Option (List String)
  directory : Option String
  publish_type : Nat
  schedule : Option String

structure AdapterEnv where
  titleOf : String → String × List String
  setupFails : Nat → Bool
  jobFails : Nat → Bool

def video_extensions : List (List Char) :=
  [".mp4".toList, ".mov".toList, ".avi".toList, ".mkv".toList, ".wmv".toList, ".flv".toList]

def lowerL (l : List Char) : List Char := l.map Char.toLower

/-- `os.path.exists`. -/
def pexists (fs : FS) (p : String) : Bool := fs.files.contains p || fs.dirs.contains p

/-- Python string `<=`: lexicographic comparison by code point, a proper
prefix comparing smaller. -/
def lexLe : List Char → List Char → Bool
  | [], _ => true
  | _ :: _, [] => false
  | a :: as, b :: bs => if a = b then lexLe as bs else decide (a < b)

/-- The sort order of Python `sorted` on path strings. -/
def strLeProp (a b : String) : Prop := lexLe a.toList b.toList = true

instance : DecidableRel strLeProp := fun a b => by unfold strLeProp; infer_instance

/-- `get_video_files` (`cli_main.py` lines 26-36): for a regular file, a
singleton when its lowercased `Path.suffix` is in the extension set; else
the union over the set of recursive globs `**/*<ext>` (each case-sensitive
on POSIX), sorted by full path string. -/
def get_video_files (fs : FS) (path : String) : List String :=
  if fs.files.contains path then
    if video_extensions.contains (lowerL (suffixOfName (fileNameOf path))) then [path] else []
  else
    List.insertionSort strLeProp
      ((video_extensions.map
        (fun ext => fs.files.filter (fun f => underDir path f && strEndsWith f ext))).flatten)

/-- Python truthiness of `args.files` (absent or the empty list is falsy). -/
def filesTruthy : Option (List String) → Bool
  | some (_ :: _) => true
  | _ => false

/-- Python truthiness of `args.schedule`. -/
def scheduleTruthy : Option String → Bool
  | some s => s ≠ ""
  | none => false

/-- The source-resolution part of the validation block (`cli_main.py` lines
63-75).  The final case (neither source given) is unreachable under the
CLI's required mutually-exclusive group; the script would crash there
(`Path(None)`), modelled as an error. -/
def resolveFiles (fs : FS) (a : CliArgs) : Except UploadErr (List String) :=
  if filesTruthy a.files then Except.ok (a.files.getD [])
  else if a.directory = none then Except.error (UploadErr.dirNotFound "")
  else if ¬ pexists fs (a.directory.getD "") then
    Except.error (UploadErr.dirNotFound (a.directory.getD ""))
  else if (get_video_files fs (a.directory.getD "")).isEmpty then
    Except.error (UploadErr.noVideos (a.directory.getD ""))
  else Except.ok (get_video_files fs (a.directory.getD ""))

/-- The per-file existence loop (`cli_main.py` lines 77-79): raises at the
first missing path. -/
def firstMissing (fs : FS) : List String → Option String
  | [] => none
  | f :: r => if pexists fs f then firstMissing fs r else some f

/-- `douyin_setup` is called with `handle=False`; the other three with
`handle=True`. -/
def interactiveFor : Platform → Bool
  | Platform.douyin => false
  | _ => true

/-- Only the Tencent job carries the extra category field. -/
def extraFor : Platform → Option Unit
  | Platform.tencent => some ()
  | _ => none

/-- The per-iteration publish computation (`cli_main.py` lines 104-109). -/
def publishOf (a : CliArgs) : Except Unit Pub :=
  if a.publish_type = 0 then Except.ok Pub.immediate
  else
    match parse_schedule a.schedule with
    | Except.ok none => Except.ok Pub.pyNone
    | Except.ok (some dt) => Except.ok (Pub.scheduledAt dt)
    | Except.error e => Except.error e

/-- The upload loop (`cli_main.py` lines 101-129), sequential over the
resolved list: title extraction, publish computation, session setup, job
construction, job run.  An uncaught adapter exception ends the recursion
with the events so far. -/
def uploadLoop (a : CliArgs) (env : AdapterEnv) : List String → Nat → List RouterEv × Option UploadErr
  | [], _ => ([], none)
  | f :: rest, i =>
    let t := env.titleOf f
    match publishOf a with
    | Except.error _ => ([RouterEv.titleExtract f], some UploadErr.formatError)
    | Except.ok pub =>
      if env.setupFails i then
        ([RouterEv.titleExtract f, RouterEv.sessionSetup a.platform (interactiveFor a.platform)],
         some UploadErr.platformSetup)
      else if env.jobFails i then
        ([RouterEv.titleExtract f, RouterEv.sessionSetup a.platform (interactiveFor a.platform),
          RouterEv.buildJob t.1 f t.2 pub (extraFor a.platform), RouterEv.runJob f],
         some UploadErr.platformJob)
      else
        let r := uploadLoop a env rest (i + 1)
        (RouterEv.titleExtract f :: RouterEv.sessionSetup a.platform (interactiveFor a.platform) ::
          RouterEv.buildJob t.1 f t.2 pub (extraFor a.platform) :: RouterEv.runJob f ::
          RouterEv.jobDone f :: r.1, r.2)

/-- The `upload` action of `main` (`cli_main.py` lines 63-129): validation
(source resolution, per-path existence, schedule presence for
`publish_type=1`), then the recomputation of the list at line 99, then the
upload loop.  The cookies-directory creation at line 85 has no modelled
event. -/
def mainUpload (fs : FS) (a : CliArgs) (env : AdapterEnv) : List RouterEv × Option UploadErr :=
  match resolveFiles fs a with
  | Except.error e => ([], some e)
  | Except.ok vfiles =>
    match firstMissing fs vfiles with
    | some f => ([], some (UploadErr.fileNotFound f))
    | none =>
      if a.publish_type = 1 ∧ ¬ scheduleTruthy a.schedule then ([], some UploadErr.missingSchedule)
      else
        let vfiles2 := if filesTruthy a.files then a.files.getD []
                       else get_video_files fs (a.directory.getD "")
        uploadLoop a env vfiles2 0

def isTitleEv : RouterEv → Bool
  | RouterEv.titleExtract _ => true
  | _ => false

def isSetupEv : RouterEv → Bool
  | RouterEv.sessionSetup _ _ => true
  | _ => false

def isBuildEv : RouterEv → Bool
  | RouterEv.buildJob _ _ _ _ _ => true
  | _ => false

def isRunEv : RouterEv → Bool
  | RouterEv.runJob _ => true
  | _ => false

def isDoneEv : RouterEv → Bool
  | RouterEv.jobDone _ => true
  | _ => false

/-- Session setup, job construction and job execution are the adapter
(upload side-effecting) events. -/
def isAdapterEv (e : RouterEv) : Bool := isSetupEv e || isBuildEv e || isRunEv e || isDoneEv e

/-! ## Auxiliary definitions for the proofs -/

deriving instance DecidableEq for Except

/-- Heads the list with `'*'`. -/
def headIsStar : List Char → Bool
  | c :: _ => c == '*'
  | [] => false

/-- An invariant of escaped text: it starts with neither a bare `'.'` nor
the two characters `'\'`,`'*'`. -/
def pOk : List Char → Bool
  | [] => true
  | c :: t => if c = '.' then false else if c = '\\' then !(headIsStar t) else true

/-! ## C5: the compiled wildcard regex equals the spec's construction

The code builds the regex by replacing `'*'` with `.*?`, escaping the
whole string, then undoing the escape of every `\.\*\?` triple.  The spec
builds it by splitting on `'*'`, escaping the segments, and joining with
`.*?`.  The two agree on every pattern: escaping distributes over the
segments, and the `\.\*\?` triples restored by the final `.replace` are
exactly the images of the inserted `.*?` runs — an occurrence of `\*`
cannot arise inside an escaped `'*'`-free segment or across a boundary
(`pOk`). -/

theorem unesc_cons_of_ne (c : Char) (t : List Char)
    (h : ∀ t2, c :: t ≠ '\\' :: '.' :: '\\' :: '*' :: '\\' :: '?' :: t2) :
    unescTriple (c :: t) = c :: unescTriple t := by
  rw [unescTriple.eq_def]
  split
  · rename_i t2 heq
    exact absurd heq (h t2)
  · rename_i c2 t2 hnc heq
    injection heq with h1 h2
    subst h1
    subst h2
    rfl
  · rename_i heq
    simp at heq

theorem escapeL_append (a b : List Char) : escapeL (a ++ b) = escapeL a ++ escapeL b := by
  induction a with
  | nil => rfl
  | cons c t ih => simp [escapeL, ih]

theorem pOk_escapeL_replaceStar (t : List Char) : pOk (escapeL (replaceStar t)) = true := by
  cases t with
  | nil => rfl
  | cons c t' =>
    by_cases hc : c = '*'
    · subst hc
      simp [replaceStar, escapeL, escChar, pySpecial, pySpecialChars, pOk, headIsStar]
    · by_cases hs : pySpecial c = true
      · simp only [replaceStar, if_neg hc, escapeL, escChar, if_pos hs]
        simp [pOk, headIsStar, hc]
      · have hdot : c ≠ '.' := by
          intro hd; subst hd; simp [pySpecial, pySpecialChars] at hs
        have hbs : c ≠ '\\' := by
          intro hd; subst hd; simp [pySpecial, pySpecialChars] at hs
        simp only [replaceStar, if_neg hc, escapeL, escChar, if_neg hs]
        simp [pOk, hdot, hbs]

theorem unesc_push (c : Char) (hc : c ≠ '*') (X : List Char) (hX : pOk X = true) :
    unescTriple (escChar c ++ X) = escChar c ++ unescTriple X := by
  by_cases hs : pySpecial c = true
  · simp only [escChar, if_pos hs, List.cons_append, List.nil_append]
    by_cases hd : c = '.'
    · subst hd
      have h1 : ∀ t2, '\\' :: '.' :: X ≠ '\\' :: '.' :: '\\' :: '*' :: '\\' :: '?' :: t2 := by
        intro t2 heq
        injection heq with e1 heq; injection heq with e2 heq
        rw [heq] at hX
        simp [pOk, headIsStar] at hX
      rw [unesc_cons_of_ne _ _ h1]
      have h2 : ∀ t2, ('.' : Char) :: X ≠ '\\' :: '.' :: '\\' :: '*' :: '\\' :: '?' :: t2 := by
        intro t2 heq
        injection heq with e1 _
        exact absurd e1 (by decide)
      rw [unesc_cons_of_ne _ _ h2]
    · have h1 : ∀ t2, '\\' :: c :: X ≠ '\\' :: '.' :: '\\' :: '*' :: '\\' :: '?' :: t2 := by
        intro t2 heq
        injection heq with e1 heq; injection heq with e2 _
        exact hd e2
      rw [unesc_cons_of_ne _ _ h1]
      by_cases hb : c = '\\'
      · subst hb
        have h2 : ∀ t2, '\\' :: X ≠ '\\' :: '.' :: '\\' :: '*' :: '\\' :: '?' :: t2 := by
          intro t2 heq
          injection heq with e1 heq
          rw [heq] at hX
          simp [pOk] at hX
        rw [unesc_cons_of_ne _ _ h2]
      · have h2 : ∀ t2, c :: X ≠ '\\' :: '.' :: '\\' :: '*' :: '\\' :: '?' :: t2 := by
          intro t2 heq
          injection heq with e1 _
          exact hb e1
        rw [unesc_cons_of_ne _ _ h2]
  · have hbs : c ≠ '\\' := by
      intro hd; subst hd; simp [pySpecial, pySpecialChars] at hs
    simp only [escChar, if_neg hs, List.cons_append, List.nil_append]
    have h2 : ∀ t2, c :: X ≠ '\\' :: '.' :: '\\' :: '*' :: '\\' :: '?' :: t2 := by
      intro t2 heq
      injection heq with e1 _
      exact hbs e1
    rw [unesc_cons_of_ne _ _ h2]

theorem splitStar_ne_nil (p : List Char) : splitStar p ≠ [] := by
  cases p with
  | nil => simp [splitStar]
  | cons c t =>
    by_cases hc : c = '*'
    · simp [splitStar, hc]
    · simp only [splitStar, if_neg hc]
      cases splitStar t <;> simp

theorem spec_star (t : List Char) : specRegex ('*' :: t) = '.' :: '*' :: '?' :: specRegex t := by
  unfold specRegex
  simp only [splitStar, if_pos rfl, List.map_cons]
  obtain ⟨y, ys, hys⟩ := List.exists_cons_of_ne_nil (splitStar_ne_nil t)
  rw [hys]
  simp [joinNonGreedy, escapeL]

theorem spec_cons (c : Char) (hc : c ≠ '*') (t : List Char) :
    specRegex (c :: t) = escChar c ++ specRegex t := by
  unfold specRegex
  obtain ⟨s, ss, hss⟩ := List.exists_cons_of_ne_nil (splitStar_ne_nil t)
  simp only [splitStar, if_neg hc, hss, List.map_cons]
  have hesc : escapeL (c :: s) = escChar c ++ escapeL s := rfl
  rw [hesc]
  cases ss with
  | nil => simp [joinNonGreedy]
  | cons b bs => simp [joinNonGreedy, List.append_assoc]

theorem codeRegex_eq_specRegex (p : List Char) : codeRegex p = specRegex p := by
  unfold codeRegex
  induction p with
  | nil => rfl
  | cons c t ih =>
    by_cases hc : c = '*'
    · subst hc
      have h1 : escapeL (replaceStar ('*' :: t)) =
          '\\' :: '.' :: '\\' :: '*' :: '\\' :: '?' :: escapeL (replaceStar t) := by
        simp [replaceStar, escapeL, escChar, pySpecial, pySpecialChars]
      rw [h1, unescTriple, ih, spec_star]
    · have h1 : escapeL (replaceStar (c :: t)) = escChar c ++ escapeL (replaceStar t) := by
        simp [replaceStar, if_neg hc, escapeL]
      rw [h1, unesc_push c hc _ (pOk_escapeL_replaceStar t), ih, spec_cons c hc]

/-- C5: for every remove-pattern containing a wildcard, the regex the
Normalizer compiles (replace each `'*'` with `.*?`, `re.escape`, undo the
escaping of the triples) equals the spec's construction (split on the
wildcard, escape each literal segment, join with the non-greedy match-any
rule); and deleting the matches of pattern `"[*]"` from the stem of
`"Song [Copyright Free] Track.mp4"` leaves `"Song  Track"` before
trimming/truncation. -/
theorem c5_wildcard_regex_refinement :
    (∀ p : List Char, '*' ∈ p → codeRegex p = specRegex p) ∧
      subW (splitStar ("[*]".toList)) (stemOf ("Song [Copyright Free] Track.mp4".toList)) =
        "Song  Track".toList := by
  constructor
  · intro p _
    exact codeRegex_eq_specRegex p
  · decide

/-- C5 witness: the equivalence instantiated at the pattern `"[*]"`. -/
theorem c5_wildcard_regex_refinement_witness :
    ('*' ∈ "[*]".toList) ∧ codeRegex ("[*]".toList) = specRegex ("[*]".toList) :=
  ⟨by decide, c5_wildcard_regex_refinement.1 ("[*]".toList) (by decide)⟩

theorem trimWS_length_le (l : List Char) : (trimWS l).length ≤ l.length := by
  unfold trimWS
  calc (List.rdropWhile pySpace (List.dropWhile pySpace l)).length
      ≤ (List.dropWhile pySpace l).length :=
        (List.rdropWhile_prefix _ _).length_le
    _ ≤ l.length := (List.dropWhile_suffix _).length_le

theorem truncTo_length_exact (m : Nat) (l : List Char) (h : m < l.length) :
    (truncTo m l).length = m := by
  unfold truncTo
  simp [h]
  omega

theorem truncTo_length_le (m : Nat) (l : List Char) : (truncTo m l).length ≤ m := by
  by_cases h : m < l.length
  · exact le_of_eq (truncTo_length_exact m l h)
  · unfold truncTo
    simp [h]
    omega

theorem replAllF_no (pat : List Char) (s : List Char) (h : occursSub pat s = false) :
    replAllF (s.length + 1) pat s = s := by
  induction s with
  | nil => rfl
  | cons c t ih =>
    simp only [occursSub, List.tail_cons, Bool.or_eq_false_iff] at h
    simp only [List.length_cons, replAllF, h.1, if_neg, Bool.false_eq_true, not_false_iff]
    rw [ih h.2]

theorem replaceAllL_of_not_occurs (pat s : List Char) (h : occursSub pat s = false) :
    replaceAllL pat s = s := by
  unfold replaceAllL
  by_cases hp : pat.isEmpty
  · simp [hp]
  · simp only [hp, if_neg, Bool.false_eq_true, not_false_iff]
    exact replAllF_no pat s h

theorem subWF_no (segs : List (List Char)) :
    ∀ fuel s, s.length < fuel → hasWMatch segs s = false → subWF fuel segs s = s := by
  intro fuel
  induction fuel with
  | zero => intro s hlen _; omega
  | succ n ih =>
    intro s hlen h
    cases s with
    | nil =>
      cases hm : matchSegs segs [] with
      | some r => simp [hasWMatch, hm] at h
      | none => simp [subWF, hm]
    | cons c t =>
      simp only [hasWMatch, List.tail_cons, Bool.or_eq_false_iff] at h
      cases hm : matchSegs segs (c :: t) with
      | some r =>
        rw [hm] at h
        simp at h
      | none =>
        simp only [subWF, hm]
        rw [ih t (by simp at hlen; omega) h.2]

theorem subW_of_no_match (segs : List (List Char)) (s : List Char)
    (h : hasWMatch segs s = false) : subW segs s = s :=
  subWF_no segs (s.length + 1) s (by omega) h

theorem removeOnePattern_fixed (s pat : List Char) (h : patNoMatch pat s = true) :
    removeOnePattern s pat = s := by
  unfold removeOnePattern patNoMatch at *
  by_cases hw : pat.contains '*'
  · simp only [hw, if_pos] at h ⊢
    simp only [Bool.not_eq_true', Bool.not_eq_false] at h
    exact subW_of_no_match _ _ h
  · simp only [hw, if_neg, Bool.false_eq_true, not_false_iff] at h ⊢
    by_cases hp : pat.isEmpty
    · unfold replaceAllL
      simp [hp]
    · simp only [hp, Bool.false_or] at h
      simp only [Bool.not_eq_true', Bool.not_eq_false] at h
      exact replaceAllL_of_not_occurs pat s h

theorem removePatterns_fixed (pats : List (List Char)) (s : List Char)
    (h : ∀ p ∈ pats, patNoMatch p s = true) : removePatterns pats s = s := by
  induction pats with
  | nil => rfl
  | cons p ps ih =>
    unfold removePatterns at *
    simp only [List.foldl_cons]
    rw [removeOnePattern_fixed s p (h p (List.mem_cons_self p ps))]
    exact ih (fun q hq => h q (List.mem_cons_of_mem p hq))

theorem trimWS_idem (l : List Char) : trimWS (trimWS l) = trimWS l := by
  unfold trimWS
  have h1 : List.dropWhile pySpace (List.rdropWhile pySpace (List.dropWhile pySpace l)) =
      List.rdropWhile pySpace (List.dropWhile pySpace l) := by
    obtain ⟨t2, ht⟩ := List.rdropWhile_prefix pySpace (List.dropWhile pySpace l)
    cases hB : List.rdropWhile pySpace (List.dropWhile pySpace l) with
    | nil => simp
    | cons b bs =>
      rw [List.dropWhile_cons]
      have hA : List.dropWhile pySpace l = b :: (bs ++ t2) := by
        rw [← ht, hB]; simp
      have hlen : 0 < (List.dropWhile pySpace l).length := by rw [hA]; simp
      have hb := List.dropWhile_get_zero_not (p := pySpace) l hlen
      have hb2 : ¬ pySpace b := by
        have hget : (List.dropWhile pySpace l).get ⟨0, hlen⟩ = b := by
          simp [hA]
        rwa [hget] at hb
      simp [hb2]
  rw [h1, List.rdropWhile_idempotent]

theorem mem_trimWS {c : Char} {l : List Char} (h : c ∈ trimWS l) : c ∈ l := by
  unfold trimWS at h
  exact (List.dropWhile_suffix pySpace).subset ((List.rdropWhile_prefix pySpace _).subset h)

theorem mem_truncTo {c : Char} {m : Nat} {l : List Char} (h : c ∈ truncTo m l) : c ∈ l := by
  unfold truncTo at h
  by_cases hm : m < l.length
  · rw [if_pos hm] at h
    exact List.take_subset m l h
  · rwa [if_neg hm] at h

theorem clean_chars_keep (cfg : NormConfig) (svcT : List Char → Option (List Char))
    (name : List Char) {c : Char} (hc : c ∈ _clean_filename cfg svcT name) :
    keepChar c = true := by
  unfold _clean_filename at hc
  have h2 := mem_truncTo (mem_trimWS hc)
  unfold cleanCore at h2
  exact (List.mem_filter.mp h2).2

theorem filter_keep_self (s : List Char) (h : ∀ c ∈ s, keepChar c = true) :
    s.filter keepChar = s := List.filter_eq_self.mpr h

/-- C8: `_clean_filename` is idempotent on its image when translation is
disabled, no remove-pattern (literal or wildcard-compiled) matches anywhere
in the cleaned stem, and the cleaned stem is within the length bound. -/
theorem c8_clean_filename_idempotent (cfg : NormConfig) (svcT : List Char → Option (List Char)) (s0 : List Char)
    (htr : cfg.translate_to_chinese = false)
    (hpat : ∀ p ∈ cfg.remove_patterns, patNoMatch p (_clean_filename cfg svcT s0) = true)
    (hlen : (_clean_filename cfg svcT s0).length ≤ cfg.max_filename_length) :
    _clean_filename cfg svcT (_clean_filename cfg svcT s0) = _clean_filename cfg svcT s0 := by
  have hcore : cleanCore cfg svcT (_clean_filename cfg svcT s0) = _clean_filename cfg svcT s0 := by
    unfold cleanCore
    rw [removePatterns_fixed _ _ hpat, htr]
    simp only [Bool.false_eq_true, if_false]
    exact filter_keep_self _ (fun c hc => clean_chars_keep cfg svcT s0 hc)
  conv_lhs => rw [_clean_filename]
  rw [hcore]
  have htrunc : truncTo cfg.max_filename_length (_clean_filename cfg svcT s0) =
      _clean_filename cfg svcT s0 := by
    unfold truncTo
    rw [if_neg (by omega)]
  rw [htrunc]
  conv_lhs => rw [_clean_filename]
  exact trimWS_idem _

/-- C7: whenever the text after pattern removal, optional translation and
special-character stripping exceeds `max_filename_length`, the truncation
step cuts it to exactly `max_filename_length` characters; and for every
input the returned cleaned stem has length at most the configured max. -/
theorem c7_truncation_and_length_bound (cfg : NormConfig)
    (svcT : List Char → Option (List Char)) (name : List Char) :
    (cfg.max_filename_length < (cleanCore cfg svcT name).length →
      (truncTo cfg.max_filename_length (cleanCore cfg svcT name)).length = cfg.max_filename_length)
    ∧ (_clean_filename cfg svcT name).length ≤ cfg.max_filename_length := by
  constructor
  · intro h
    exact truncTo_length_exact _ _ h
  · unfold _clean_filename
    have h1 := trimWS_length_le (truncTo cfg.max_filename_length (cleanCore cfg svcT name))
    have h2 := truncTo_length_le cfg.max_filename_length (cleanCore cfg svcT name)
    omega

/-- C7 witness: with `max_filename_length = 3` the core text `"abcdef"` is
truncated to exactly 3 characters. -/
theorem c7_truncation_and_length_bound_witness :
    (3 < (cleanCore ⟨[], false, 3, "v"⟩ (fun _ => none) ("abcdef".toList)).length) ∧
      (truncTo 3 (cleanCore ⟨[], false, 3, "v"⟩ (fun _ => none) ("abcdef".toList))).length = 3 :=
  ⟨by decide, (c7_truncation_and_length_bound ⟨[], false, 3, "v"⟩ (fun _ => none)
    ("abcdef".toList)).1 (by decide)⟩

/-- C8 witness: re-cleaning the already cleaned stem of
`"Song [Copyright Free] Track"` under patterns `["[*]", "xx"]` changes
nothing. -/
theorem c8_clean_filename_idempotent_witness :
    _clean_filename ⟨["[*]".toList, "xx".toList], false, 100, "v"⟩ (fun _ => none)
        (_clean_filename ⟨["[*]".toList, "xx".toList], false, 100, "v"⟩ (fun _ => none)
          ("Song [Copyright Free] Track".toList)) =
      _clean_filename ⟨["[*]".toList, "xx".toList], false, 100, "v"⟩ (fun _ => none)
        ("Song [Copyright Free] Track".toList) :=
  c8_clean_filename_idempotent ⟨["[*]".toList, "xx".toList], false, 100, "v"⟩ (fun _ => none)
    ("Song [Copyright Free] Track".toList) (by decide) (by decide) (by decide)

theorem getDesc_fallback (svc : List Char → Option (List Char)) (name : List Char)
    (h : svc name = none) :
    _get_video_description svc name = "无法生成描述: ".toList ++ name := by
  unfold _get_video_description
  rw [h]

theorem processOneRun_same (cfg : NormConfig) (orc : NormOracles) (f : String)
    (hnp : f = newPathOf cfg orc f)
    (hwr : orc.writeFails (txtPathOf cfg orc f) = false) :
    processOneRun cfg orc f =
      ([NormEv.writeSidecar (txtPathOf cfg orc f)
        (_get_video_description orc.svcDescribe (cleanedStem cfg orc f))], false) := by
  unfold processOneRun
  rw [if_neg (not_not_intro hnp), if_neg (by rw [hwr]; exact Bool.false_ne_true)]

theorem processOneRun_renamed (cfg : NormConfig) (orc : NormOracles) (f : String)
    (hnp : f ≠ newPathOf cfg orc f)
    (hrf : orc.renameFails f (newPathOf cfg orc f) = false)
    (hwr : orc.writeFails (txtPathOf cfg orc f) = false) :
    processOneRun cfg orc f =
      ([NormEv.renameFile f (newPathOf cfg orc f),
        NormEv.writeSidecar (txtPathOf cfg orc f)
          (_get_video_description orc.svcDescribe (cleanedStem cfg orc f))], false) := by
  unfold processOneRun
  rw [if_pos hnp, if_neg (by rw [hrf]; exact Bool.false_ne_true),
    if_neg (by rw [hwr]; exact Bool.false_ne_true)]

theorem handleOne_of_run (cfg : NormConfig) (orc : NormOracles) (f : String)
    (evs : List NormEv) (h : processOneRun cfg orc f = (evs, false)) :
    handleOne cfg orc f = evs := by
  unfold handleOne
  rw [h]
  rfl

theorem handleOne_of_abort (cfg : NormConfig) (orc : NormOracles) (f : String)
    (evs : List NormEv) (h : processOneRun cfg orc f = (evs, true)) :
    handleOne cfg orc f = evs ++ [NormEv.logProcError f] := by
  unfold handleOne
  rw [h]
  rfl

theorem processOneRun_svc_fail (cfg : NormConfig) (orc : NormOracles) (f : String)
    (hsvc : orc.svcDescribe (cleanedStem cfg orc f) = none)
    (hren : f = newPathOf cfg orc f ∨ orc.renameFails f (newPathOf cfg orc f) = false)
    (hwr : orc.writeFails (txtPathOf cfg orc f) = false) :
    NormEv.writeSidecar (txtPathOf cfg orc f)
        ("无法生成描述: ".toList ++ cleanedStem cfg orc f) ∈ handleOne cfg orc f := by
  have hdesc := getDesc_fallback orc.svcDescribe (cleanedStem cfg orc f) hsvc
  by_cases hnp : f = newPathOf cfg orc f
  · rw [handleOne_of_run cfg orc f _ (processOneRun_same cfg orc f hnp hwr), hdesc]
    simp
  · rcases hren with heq | hrf
    · exact absurd heq hnp
    · rw [handleOne_of_run cfg orc f _ (processOneRun_renamed cfg orc f hnp hrf hwr), hdesc]
      simp

theorem processFiles_append (cfg : NormConfig) (orc : NormOracles) (l1 l2 : List String) :
    processFiles cfg orc (l1 ++ l2) = processFiles cfg orc l1 ++ processFiles cfg orc l2 := by
  unfold processFiles
  simp

theorem processFiles_mem (cfg : NormConfig) (orc : NormOracles) (files : List String)
    (f : String) (hf : f ∈ files) (ev : NormEv) (hev : ev ∈ handleOne cfg orc f) :
    ev ∈ processFiles cfg orc files := by
  unfold processFiles
  rw [List.mem_flatten]
  exact ⟨handleOne cfg orc f, List.mem_map_of_mem _ hf, hev⟩

theorem handleOne_shape (cfg : NormConfig) (orc : NormOracles) (f : String) :
    ∀ ev ∈ handleOne cfg orc f,
      (∃ np, ev = NormEv.renameFile f np) ∨
        (∃ c2, ev = NormEv.writeSidecar (txtPathOf cfg orc f) c2) ∨
        ev = NormEv.logProcError f := by
  intro ev hev
  unfold handleOne processOneRun at hev
  by_cases hnp : f ≠ newPathOf cfg orc f
  · rw [if_pos hnp] at hev
    by_cases hrf : orc.renameFails f (newPathOf cfg orc f) = true
    · rw [if_pos hrf] at hev
      simp at hev
      exact Or.inr (Or.inr hev)
    · rw [if_neg hrf] at hev
      by_cases hwf : orc.writeFails (txtPathOf cfg orc f) = true
      · rw [if_pos hwf] at hev
        simp at hev
        rcases hev with h1 | h1
        · exact Or.inl ⟨_, h1⟩
        · exact Or.inr (Or.inr h1)
      · rw [if_neg hwf] at hev
        simp at hev
        rcases hev with h1 | h1
        · exact Or.inl ⟨_, h1⟩
        · exact Or.inr (Or.inl ⟨_, h1⟩)
  · rw [if_neg hnp] at hev
    by_cases hwf : orc.writeFails (txtPathOf cfg orc f) = true
    · rw [if_pos hwf] at hev
      simp at hev
      exact Or.inr (Or.inr hev)
    · rw [if_neg hwf] at hev
      simp at hev
      exact Or.inr (Or.inl ⟨_, hev⟩)

theorem processFiles_prov (cfg : NormConfig) (orc : NormOracles) (files : List String)
    (ev : NormEv) (hev : ev ∈ processFiles cfg orc files) :
    ∃ f ∈ files, ev ∈ handleOne cfg orc f := by
  unfold processFiles at hev
  rw [List.mem_flatten] at hev
  obtain ⟨l, hl, hevl⟩ := hev
  rw [List.mem_map] at hl
  obtain ⟨f, hf, rfl⟩ := hl
  exact ⟨f, hf, hevl⟩

/-- C1: `_get_video_description` never propagates an exception: it is a
total function of the service oracle, and on any service failure it returns
the fallback `"无法生成描述: <stem>"`, which embeds the cleaned stem; any
exception while processing one file is caught inside the per-file loop
(`handleOne`), so the batch covers every file: a file whose body aborts
contributes its partial effects plus a logged error and the remaining files
are processed unchanged; when the service fails but the file's own
filesystem operations succeed, the sidecar is still written with the
fallback text. -/
theorem c1_description_fallback_and_batch_isolation :
    (∀ (svc : List Char → Option (List Char)) (name : List Char), svc name = none →
      _get_video_description svc name = "无法生成描述: ".toList ++ name) ∧
    (∀ (cfg : NormConfig) (orc : NormOracles) (files1 : List String) (f : String)
        (files2 : List String) (evs : List NormEv), processOneRun cfg orc f = (evs, true) →
      processFiles cfg orc (files1 ++ f :: files2) =
        processFiles cfg orc files1 ++ (evs ++ [NormEv.logProcError f]) ++
          processFiles cfg orc files2) ∧
    (∀ (cfg : NormConfig) (orc : NormOracles) (files : List String) (f : String), f ∈ files →
      orc.svcDescribe (cleanedStem cfg orc f) = none →
      (f = newPathOf cfg orc f ∨ orc.renameFails f (newPathOf cfg orc f) = false) →
      orc.writeFails (txtPathOf cfg orc f) = false →
      NormEv.writeSidecar (txtPathOf cfg orc f)
        ("无法生成描述: ".toList ++ cleanedStem cfg orc f) ∈ processFiles cfg orc files) := by
  refine ⟨getDesc_fallback, ?_, ?_⟩
  · intro cfg orc files1 f files2 evs habort
    rw [processFiles_append]
    have hcons : processFiles cfg orc (f :: files2) =
        handleOne cfg orc f ++ processFiles cfg orc files2 := by
      unfold processFiles
      simp
    rw [hcons, handleOne_of_abort cfg orc f evs habort]
    simp [List.append_assoc]
  · intro cfg orc files f hf hsvc hren hwr
    exact processFiles_mem cfg orc files f hf _ (processOneRun_svc_fail cfg orc f hsvc hren hwr)

/-- C1 witness: with a failing text service, the sidecar of `"v/a.mp4"` is
written with the fallback description. -/
theorem c1_description_fallback_and_batch_isolation_witness :
    NormEv.writeSidecar "v/a.txt" ("无法生成描述: ".toList ++ "a".toList) ∈
      processFiles ⟨[], false, 100, "v"⟩ ⟨fun _ => none, fun _ => none, fun _ _ => false,
        fun _ => false⟩ ["v/a.mp4"] := by
  have h := c1_description_fallback_and_batch_isolation.2.2 ⟨[], false, 100, "v"⟩
    ⟨fun _ => none, fun _ => none, fun _ _ => false, fun _ => false⟩ ["v/a.mp4"] "v/a.mp4"
    (by decide) rfl (Or.inl (by decide)) rfl
  have hstem : cleanedStem ⟨[], false, 100, "v"⟩
      ⟨fun _ => none, fun _ => none, fun _ _ => false, fun _ => false⟩ "v/a.mp4" = "a".toList := by
    decide
  have htp : txtPathOf ⟨[], false, 100, "v"⟩
      ⟨fun _ => none, fun _ => none, fun _ _ => false, fun _ => false⟩ "v/a.mp4" = "v/a.txt" := by
    decide
  rw [hstem, htp] at h
  exact h

/-- C10: every rename recorded by `process_directory` has as source a file
directly under the configured directory whose name ends (case-sensitively)
in `.mp4`, and every sidecar written derives from such a file; hence files
with the other five extensions, uppercase `.MP4`, or files in
subdirectories are never renamed and never receive a sidecar. -/
theorem c10_mp4_glob_frame (cfg : NormConfig) (orc : NormOracles) (fs : FS) :
    (∀ src dst, NormEv.renameFile src dst ∈ process_directory cfg orc fs →
      src ∈ fs.files ∧ directlyUnder cfg.video_directory src = true ∧
        strEndsWith src (".mp4".toList) = true) ∧
    (∀ p c2, NormEv.writeSidecar p c2 ∈ process_directory cfg orc fs →
      ∃ g, g ∈ fs.files ∧ directlyUnder cfg.video_directory g = true ∧
        strEndsWith g (".mp4".toList) = true ∧ p = txtPathOf cfg orc g) := by
  unfold process_directory
  by_cases hdir : fs.dirs.contains cfg.video_directory = true
  · rw [if_pos hdir]
    constructor
    · intro src dst hev
      obtain ⟨f, hf, hev1⟩ := processFiles_prov cfg orc _ _ hev
      have hfm := List.mem_filter.mp hf
      have hb := Bool.and_eq_true_iff.mp hfm.2
      rcases handleOne_shape cfg orc f _ hev1 with ⟨np, heq⟩ | ⟨c2, heq⟩ | heq
      · injection heq with h1 h2
        subst h1
        exact ⟨hfm.1, hb.1, hb.2⟩
      · exact absurd heq (by simp)
      · exact absurd heq (by simp)
    · intro p c2 hev
      obtain ⟨f, hf, hev1⟩ := processFiles_prov cfg orc _ _ hev
      have hfm := List.mem_filter.mp hf
      have hb := Bool.and_eq_true_iff.mp hfm.2
      rcases handleOne_shape cfg orc f _ hev1 with ⟨np, heq⟩ | ⟨c3, heq⟩ | heq
      · exact absurd heq (by simp)
      · injection heq with h1 h2
        subst h1
        exact ⟨f, hfm.1, hb.1, hb.2, rfl⟩
      · exact absurd heq (by simp)
  · rw [if_neg hdir]
    constructor
    · intro src dst hev
      simp at hev
    · intro p c2 hev
      simp at hev

/-- C10 witness: the one rename the example batch performs comes from a
lowercase `.mp4` file sitting directly in the configured directory. -/
theorem c10_mp4_glob_frame_witness :
    ("v/a [x] b.mp4" ∈ (FS.mk ["v/a [x] b.mp4"] ["v"]).files ∧
      directlyUnder "v" "v/a [x] b.mp4" = true ∧
      strEndsWith "v/a [x] b.mp4" (".mp4".toList) = true) :=
  (c10_mp4_glob_frame ⟨["[*]".toList], false, 100, "v"⟩
    ⟨fun _ => none, fun _ => none, fun _ _ => false, fun _ => false⟩
    ⟨["v/a [x] b.mp4"], ["v"]⟩).1 "v/a [x] b.mp4" "v/a  b.mp4" (by decide)

theorem resolveFiles_ok_ne_nil (fs : FS) (a : CliArgs) (v : List String)
    (h : resolveFiles fs a = Except.ok v) : v ≠ [] := by
  unfold resolveFiles at h
  by_cases hft : filesTruthy a.files = true
  · rw [if_pos hft] at h
    injection h with h1
    subst h1
    cases ha : a.files with
    | none => rw [ha] at hft; simp [filesTruthy] at hft
    | some l =>
      cases l with
      | nil => rw [ha] at hft; simp [filesTruthy] at hft
      | cons x xs => simp [ha]
  · rw [if_neg hft] at h
    by_cases hd : a.directory = none
    · rw [if_pos hd] at h
      simp at h
    · rw [if_neg hd] at h
      by_cases hex : pexists fs (a.directory.getD "") = true
      · rw [if_neg (not_not_intro hex)] at h
        by_cases hvf : (get_video_files fs (a.directory.getD "")).isEmpty = true
        · rw [if_pos hvf] at h
          simp at h
        · rw [if_neg hvf] at h
          injection h with h1
          subst h1
          simpa [List.isEmpty_iff] using hvf
      · rw [if_pos (by simpa using hex)] at h
        simp at h

theorem resolveFiles_ok_recompute (fs : FS) (a : CliArgs) (v : List String)
    (h : resolveFiles fs a = Except.ok v) :
    (if filesTruthy a.files then a.files.getD [] else get_video_files fs (a.directory.getD ""))
      = v := by
  unfold resolveFiles at h
  by_cases hft : filesTruthy a.files = true
  · rw [if_pos hft] at h ⊢
    injection h
  · rw [if_neg hft] at h ⊢
    by_cases hd : a.directory = none
    · rw [if_pos hd] at h
      simp at h
    · rw [if_neg hd] at h
      by_cases hex : pexists fs (a.directory.getD "") = true
      · rw [if_neg (not_not_intro hex)] at h
        by_cases hvf : (get_video_files fs (a.directory.getD "")).isEmpty = true
        · rw [if_pos hvf] at h
          simp at h
        · rw [if_neg hvf] at h
          injection h
      · rw [if_pos (by simpa using hex)] at h
        simp at h

theorem mainUpload_run (fs : FS) (a : CliArgs) (env : AdapterEnv) (vfiles : List String)
    (hres : resolveFiles fs a = Except.ok vfiles)
    (hmiss : firstMissing fs vfiles = none)
    (hval : ¬ (a.publish_type = 1 ∧ ¬ scheduleTruthy a.schedule = true)) :
    mainUpload fs a env = uploadLoop a env vfiles 0 := by
  have hrec := resolveFiles_ok_recompute fs a vfiles hres
  simp only [mainUpload, hres, hmiss, if_neg hval, hrec]

theorem parse_schedule_fail (s : String) (hs : s ≠ "") (hbad : strptimeYmdHM s.toList = none) :
    parse_schedule (some s) = Except.error () := by
  simp only [parse_schedule, if_neg hs, hbad]

theorem publishOf_parse_error (a : CliArgs) (s : String)
    (hpt : a.publish_type = 1) (hsch : a.schedule = some s) (hs : s ≠ "")
    (hbad : strptimeYmdHM s.toList = none) : publishOf a = Except.error () := by
  simp only [publishOf, hpt, if_neg (by decide : ¬ (1 = 0)), hsch,
    parse_schedule_fail s hs hbad]

/-- C6 (amended): `parse_schedule` of an absent (or empty, hence falsy)
input returns the immediate sentinel `None`; `"2024-01-15 10:30"` parses to
the naive instant 2024-01-15T10:30; every non-empty string the
`'%Y-%m-%d %H:%M'` parser rejects raises a `FormatError`, and inside an
upload Task this failure surfaces in the first loop iteration, before any
session establishment, job construction or upload. -/
theorem c6_schedule_parser_amended :
    (parse_schedule none = Except.ok none) ∧
    (parse_schedule (some "2024-01-15 10:30") = Except.ok (some ⟨2024, 1, 15, 10, 30⟩)) ∧
    (∀ s : String, s ≠ "" → strptimeYmdHM s.toList = none →
      parse_schedule (some s) = Except.error ()) ∧
    (∀ (fs : FS) (a : CliArgs) (env : AdapterEnv) (vfiles : List String) (s : String),
      resolveFiles fs a = Except.ok vfiles → firstMissing fs vfiles = none →
      a.publish_type = 1 → a.schedule = some s → s ≠ "" → strptimeYmdHM s.toList = none →
      (mainUpload fs a env).2 = some UploadErr.formatError ∧
        ∀ ev ∈ (mainUpload fs a env).1, isAdapterEv ev = false) := by
  refine ⟨by decide, by decide, parse_schedule_fail, ?_⟩
  intro fs a env vfiles s hres hmiss hpt hsch hs hbad
  have hne := resolveFiles_ok_ne_nil fs a vfiles hres
  have hcond : ¬ (a.publish_type = 1 ∧ ¬ scheduleTruthy a.schedule = true) := by
    intro hc
    exact hc.2 (by rw [hsch]; simpa [scheduleTruthy] using hs)
  have hmain := mainUpload_run fs a env vfiles hres hmiss hcond
  obtain ⟨f, rest, hv⟩ := List.exists_cons_of_ne_nil hne
  have hloop : uploadLoop a env vfiles 0 =
      ([RouterEv.titleExtract f], some UploadErr.formatError) := by
    rw [hv]
    simp only [uploadLoop, publishOf_parse_error a s hpt hsch hs hbad]
  rw [hmain, hloop]
  exact ⟨rfl, by intro ev hev; simp at hev; rw [hev]; rfl⟩

theorem uploadLoop_cons_ok (a : CliArgs) (env : AdapterEnv) (f : String) (rest : List String)
    (i : Nat) (pub : Pub) (hpub : publishOf a = Except.ok pub) :
    uploadLoop a env (f :: rest) i =
      (if env.setupFails i then
        ([RouterEv.titleExtract f, RouterEv.sessionSetup a.platform (interactiveFor a.platform)],
         some UploadErr.platformSetup)
      else if env.jobFails i then
        ([RouterEv.titleExtract f, RouterEv.sessionSetup a.platform (interactiveFor a.platform),
          RouterEv.buildJob (env.titleOf f).1 f (env.titleOf f).2 pub (extraFor a.platform),
          RouterEv.runJob f], some UploadErr.platformJob)
      else
        (RouterEv.titleExtract f :: RouterEv.sessionSetup a.platform (interactiveFor a.platform) ::
          RouterEv.buildJob (env.titleOf f).1 f (env.titleOf f).2 pub (extraFor a.platform) ::
          RouterEv.runJob f :: RouterEv.jobDone f :: (uploadLoop a env rest (i + 1)).1,
         (uploadLoop a env rest (i + 1)).2)) := by
  simp only [uploadLoop, hpub]

theorem firstMissing_finds (fs : FS) :
    ∀ v : List String, (∃ f ∈ v, pexists fs f = false) →
      ∃ g, firstMissing fs v = some g ∧ pexists fs g = false ∧ g ∈ v := by
  intro v
  induction v with
  | nil => rintro ⟨f, hf, _⟩; simp at hf
  | cons x xs ih =>
    rintro ⟨f, hf, hmiss⟩
    by_cases hx : pexists fs x = true
    · have hxs : ∃ f ∈ xs, pexists fs f = false := by
        rcases List.mem_cons.mp hf with h1 | h1
        · subst h1; rw [hx] at hmiss; simp at hmiss
        · exact ⟨f, h1, hmiss⟩
      obtain ⟨g, hg1, hg2, hg3⟩ := ih hxs
      refine ⟨g, ?_, hg2, List.mem_cons_of_mem x hg3⟩
      unfold firstMissing
      rw [if_pos hx, hg1]
    · refine ⟨x, ?_, by simpa using hx, List.mem_cons_self x xs⟩
      unfold firstMissing
      rw [if_neg hx]

/-- C2: if any path of the resolved upload list does not exist, `main`
raises `FileNotFoundError` during validation: the run ends with a
not-found error for a missing listed path and an empty event trace — no
title extraction, session establishment, job construction or upload
happens for any file of the batch. -/
theorem c2_missing_path_fail_fast (fs : FS) (a : CliArgs) (env : AdapterEnv) (vfiles : List String)
    (hres : resolveFiles fs a = Except.ok vfiles) (f : String) (hf : f ∈ vfiles)
    (hmiss : pexists fs f = false) :
    ∃ g, mainUpload fs a env = ([], some (UploadErr.fileNotFound g)) ∧
      pexists fs g = false ∧ g ∈ vfiles := by
  obtain ⟨g, hg1, hg2, hg3⟩ := firstMissing_finds fs vfiles ⟨f, hf, hmiss⟩
  refine ⟨g, ?_, hg2, hg3⟩
  simp only [mainUpload, hres, hg1]

theorem uploadLoop_fail_counts (a : CliArgs) (env : AdapterEnv) (pub : Pub)
    (hpub : publishOf a = Except.ok pub) :
    ∀ (files : List String) (i k : Nat), k < files.length →
    (∀ j, j ≤ k → env.setupFails (i + j) = false) →
    (∀ j, j < k → env.jobFails (i + j) = false) →
    env.jobFails (i + k) = true →
    (uploadLoop a env files i).2 = some UploadErr.platformJob ∧
    List.countP isTitleEv (uploadLoop a env files i).1 = k + 1 ∧
    List.countP isSetupEv (uploadLoop a env files i).1 = k + 1 ∧
    List.countP isBuildEv (uploadLoop a env files i).1 = k + 1 ∧
    List.countP isRunEv (uploadLoop a env files i).1 = k + 1 ∧
    List.countP isDoneEv (uploadLoop a env files i).1 = k := by
  intro files
  induction files with
  | nil => intro i k hk; simp at hk
  | cons f rest ih =>
    intro i k hk hsetup hjob hfail
    rw [uploadLoop_cons_ok a env f rest i pub hpub]
    cases k with
    | zero =>
      have hs0 : env.setupFails i = false := by simpa using hsetup 0 (Nat.le_refl 0)
      have hj0 : env.jobFails i = true := by simpa using hfail
      rw [if_neg (by rw [hs0]; exact Bool.false_ne_true), if_pos hj0]
      refine ⟨rfl, ?_, ?_, ?_, ?_, ?_⟩ <;>
        simp [List.countP_cons, isTitleEv, isSetupEv, isBuildEv, isRunEv, isDoneEv]
    | succ k2 =>
      have hs0 : env.setupFails i = false := by simpa using hsetup 0 (Nat.zero_le _)
      have hj0 : env.jobFails i = false := by simpa using hjob 0 (Nat.succ_pos k2)
      rw [if_neg (by rw [hs0]; exact Bool.false_ne_true),
        if_neg (by rw [hj0]; exact Bool.false_ne_true)]
      have ih2 := ih (i + 1) k2 (by simpa using Nat.lt_of_succ_lt_succ hk)
        (fun j hj => by
          have h3 := hsetup (j + 1) (Nat.succ_le_succ hj)
          rwa [show i + (j + 1) = i + 1 + j by omega] at h3)
        (fun j hj => by
          have h3 := hjob (j + 1) (Nat.succ_lt_succ hj)
          rwa [show i + (j + 1) = i + 1 + j by omega] at h3)
        (by
          have h3 := hfail
          rwa [show i + (k2 + 1) = i + 1 + k2 by omega] at h3)
      obtain ⟨h2, ht, hsc, hb, hr, hd⟩ := ih2
      refine ⟨h2, ?_, ?_, ?_, ?_, ?_⟩ <;>
        simp [List.countP_cons, isTitleEv, isSetupEv, isBuildEv, isRunEv, isDoneEv,
          ht, hsc, hb, hr, hd]

/-- C3: when `await app.main()` of the k-th video raises (all earlier
setups and jobs succeeding), the exception propagates: the run ends with
the platform error, exactly the first k+1 videos got title extraction,
session setup, job construction and a job run, and only the first k
completed — nothing happens for any later video. -/
theorem c3_job_failure_halts_batch (fs : FS) (a : CliArgs) (env : AdapterEnv) (vfiles : List String) (pub : Pub)
    (k : Nat)
    (hres : resolveFiles fs a = Except.ok vfiles)
    (hallex : firstMissing fs vfiles = none)
    (hval : ¬ (a.publish_type = 1 ∧ ¬ scheduleTruthy a.schedule = true))
    (hpub : publishOf a = Except.ok pub)
    (hk : k < vfiles.length)
    (hsetup : ∀ j, j ≤ k → env.setupFails j = false)
    (hjob : ∀ j, j < k → env.jobFails j = false)
    (hfail : env.jobFails k = true) :
    (mainUpload fs a env).2 = some UploadErr.platformJob ∧
    List.countP isTitleEv (mainUpload fs a env).1 = k + 1 ∧
    List.countP isSetupEv (mainUpload fs a env).1 = k + 1 ∧
    List.countP isBuildEv (mainUpload fs a env).1 = k + 1 ∧
    List.countP isRunEv (mainUpload fs a env).1 = k + 1 ∧
    List.countP isDoneEv (mainUpload fs a env).1 = k := by
  rw [mainUpload_run fs a env vfiles hres hallex hval]
  exact uploadLoop_fail_counts a env pub hpub vfiles 0 k hk
    (fun j hj => by simpa using hsetup j hj)
    (fun j hj => by simpa using hjob j hj)
    (by simpa using hfail)

theorem publishOf_pt0 (a : CliArgs) (h : a.publish_type = 0) :
    publishOf a = Except.ok Pub.immediate := by
  simp [publishOf, h]

theorem uploadLoop_sched_inv (a : CliArgs) (env : AdapterEnv) (s : Option String)
    (hpt : a.publish_type = 0) :
    ∀ (files : List String) (i : Nat),
      uploadLoop { a with schedule := s } env files i = uploadLoop a env files i := by
  intro files
  induction files with
  | nil => intro i; rfl
  | cons f rest ih =>
    intro i
    rw [uploadLoop_cons_ok { a with schedule := s } env f rest i Pub.immediate
        (publishOf_pt0 _ hpt),
      uploadLoop_cons_ok a env f rest i Pub.immediate (publishOf_pt0 _ hpt), ih]

theorem mainUpload_sched_inv (fs : FS) (a : CliArgs) (env : AdapterEnv) (s : Option String)
    (hpt : a.publish_type = 0) :
    mainUpload fs { a with schedule := s } env = mainUpload fs a env := by
  have hres : resolveFiles fs { a with schedule := s } = resolveFiles fs a := rfl
  unfold mainUpload
  rw [hres]
  cases hr : resolveFiles fs a with
  | error e => simp only [hr]
  | ok v =>
    simp only [hr]
    cases hm : firstMissing fs v with
    | some g => simp only [hm]
    | none =>
      simp only [hm]
      have hc1 : ¬ (({ a with schedule := s } : CliArgs).publish_type = 1 ∧
          ¬ scheduleTruthy ({ a with schedule := s } : CliArgs).schedule = true) := by
        intro hc
        have h3 : a.publish_type = 1 := hc.1
        rw [hpt] at h3
        exact absurd h3 (by decide)
      have hc2 : ¬ (a.publish_type = 1 ∧ ¬ scheduleTruthy a.schedule = true) := by
        intro hc
        have h3 := hc.1
        rw [hpt] at h3
        exact absurd h3 (by decide)
      rw [if_neg hc1, if_neg hc2]
      exact uploadLoop_sched_inv a env s hpt _ 0

theorem uploadLoop_build_immediate (a : CliArgs) (env : AdapterEnv)
    (hpub : publishOf a = Except.ok Pub.immediate) :
    ∀ (files : List String) (i : Nat) (ev : RouterEv), ev ∈ (uploadLoop a env files i).1 →
      ∀ title path tags pub extra, ev = RouterEv.buildJob title path tags pub extra →
        pub = Pub.immediate := by
  intro files
  induction files with
  | nil => intro i ev hev; simp [uploadLoop] at hev
  | cons f rest ih =>
    intro i ev hev title path tags pub extra heq
    rw [uploadLoop_cons_ok a env f rest i Pub.immediate hpub] at hev
    by_cases hs : env.setupFails i = true
    · rw [if_pos hs] at hev
      simp at hev
      rcases hev with h | h <;> (rw [h] at heq; simp at heq)
    · rw [if_neg hs] at hev
      by_cases hj : env.jobFails i = true
      · rw [if_pos hj] at hev
        simp at hev
        rcases hev with h | h | h | h
        · rw [h] at heq; simp at heq
        · rw [h] at heq; simp at heq
        · rw [h] at heq
          injection heq with e1 e2 e3 e4 e5
          exact e4.symm
        · rw [h] at heq; simp at heq
      · rw [if_neg hj] at hev
        simp only [List.mem_cons] at hev
        rcases hev with h | h | h | h | h | h
        · rw [h] at heq; simp at heq
        · rw [h] at heq; simp at heq
        · rw [h] at heq
          injection heq with e1 e2 e3 e4 e5
          exact e4.symm
        · rw [h] at heq; simp at heq
        · rw [h] at heq; simp at heq
        · exact ih (i + 1) ev h title path tags pub extra heq

/-- C9: with `publish_type = 0` (the CLI default) the schedule argument is
never parsed: the whole upload run is unchanged under any replacement of
the schedule string — even a malformed one — and every job the run builds
carries the immediate sentinel `0` as its publish instant. -/
theorem c9_publish_type_zero_ignores_schedule (fs : FS) (a : CliArgs) (env : AdapterEnv) (hpt : a.publish_type = 0) :
    (∀ s1 s2 : Option String,
      mainUpload fs { a with schedule := s1 } env = mainUpload fs { a with schedule := s2 } env) ∧
    (∀ ev ∈ (mainUpload fs a env).1, ∀ title path tags pub extra,
      ev = RouterEv.buildJob title path tags pub extra → pub = Pub.immediate) := by
  constructor
  · intro s1 s2
    rw [mainUpload_sched_inv fs a env s1 hpt, mainUpload_sched_inv fs a env s2 hpt]
  · intro ev hev title path tags pub extra heq
    unfold mainUpload at hev
    cases hr : resolveFiles fs a with
    | error e => simp [hr] at hev
    | ok v =>
      simp only [hr] at hev
      cases hm : firstMissing fs v with
      | some g => simp [hm] at hev
      | none =>
        simp only [hm] at hev
        by_cases hc : (a.publish_type = 1 ∧ ¬ scheduleTruthy a.schedule = true)
        · have h3 := hc.1
          rw [hpt] at h3
          exact absurd h3 (by decide)
        · rw [if_neg hc] at hev
          exact uploadLoop_build_immediate a env (publishOf_pt0 a hpt) _ 0 ev hev
            title path tags pub extra heq

/-- C6 counterexample: `"2024-1-15 10:30"` is a non-empty string that does
not match the fixed shape `"YYYY-MM-DD HH:MM"`, yet `parse_schedule`
accepts it (Python `strptime` allows unpadded fields), refuting the claim
that every such string fails with a FormatError. -/
theorem c6_fixed_format_counterexample :
    ("2024-1-15 10:30" : String) ≠ "" ∧
      matchesFixedFormat "2024-1-15 10:30" = false ∧
      parse_schedule (some "2024-1-15 10:30") =
        Except.ok (some ⟨2024, 1, 15, 10, 30⟩) := by
  refine ⟨by decide, by decide, by decide⟩

/-- C6 witness: `"not-a-date"` fails with a FormatError, and a scheduled
upload Task carrying it aborts with the format error (before any adapter
call). -/
theorem c6_schedule_parser_amended_witness :
    parse_schedule (some "not-a-date") = Except.error () ∧
      (mainUpload ⟨["a.mp4"], []⟩
        ⟨Platform.douyin, "x", some ["a.mp4"], none, 1, some "not-a-date"⟩
        ⟨fun _ => ("t", []), fun _ => false, fun _ => false⟩).2 =
        some UploadErr.formatError :=
  ⟨c6_schedule_parser_amended.2.2.1 "not-a-date" (by decide) (by decide),
   (c6_schedule_parser_amended.2.2.2 ⟨["a.mp4"], []⟩
      ⟨Platform.douyin, "x", some ["a.mp4"], none, 1, some "not-a-date"⟩
      ⟨fun _ => ("t", []), fun _ => false, fun _ => false⟩ ["a.mp4"] "not-a-date"
      (by decide) (by decide) rfl rfl (by decide) (by decide)).1⟩

/-- C2 witness: a batch listing the existing `"a.mp4"` and the missing
`"b.mp4"` ends in a not-found error with an empty event trace. -/
theorem c2_missing_path_fail_fast_witness :
    ∃ g, mainUpload ⟨["a.mp4"], []⟩
        ⟨Platform.douyin, "x", some ["a.mp4", "b.mp4"], none, 0, none⟩
        ⟨fun _ => ("t", []), fun _ => false, fun _ => false⟩ =
        ([], some (UploadErr.fileNotFound g)) ∧
      pexists ⟨["a.mp4"], []⟩ g = false ∧ g ∈ ["a.mp4", "b.mp4"] :=
  c2_missing_path_fail_fast ⟨["a.mp4"], []⟩
    ⟨Platform.douyin, "x", some ["a.mp4", "b.mp4"], none, 0, none⟩
    ⟨fun _ => ("t", []), fun _ => false, fun _ => false⟩ ["a.mp4", "b.mp4"]
    (by decide) "b.mp4" (by decide) (by decide)

/-- C3 witness: in a three-video batch whose second job run raises, exactly
two videos are title-extracted, set up, built and run, and only one
completes. -/
theorem c3_job_failure_halts_batch_witness :
    (mainUpload ⟨["a.mp4", "b.mp4", "c.mp4"], []⟩
        ⟨Platform.tencent, "x", some ["a.mp4", "b.mp4", "c.mp4"], none, 0, none⟩
        ⟨fun _ => ("t", []), fun _ => false, fun i => decide (i = 1)⟩).2 =
      some UploadErr.platformJob ∧
    List.countP isTitleEv (mainUpload ⟨["a.mp4", "b.mp4", "c.mp4"], []⟩
        ⟨Platform.tencent, "x", some ["a.mp4", "b.mp4", "c.mp4"], none, 0, none⟩
        ⟨fun _ => ("t", []), fun _ => false, fun i => decide (i = 1)⟩).1 = 2 ∧
    List.countP isSetupEv (mainUpload ⟨["a.mp4", "b.mp4", "c.mp4"], []⟩
        ⟨Platform.tencent, "x", some ["a.mp4", "b.mp4", "c.mp4"], none, 0, none⟩
        ⟨fun _ => ("t", []), fun _ => false, fun i => decide (i = 1)⟩).1 = 2 ∧
    List.countP isBuildEv (mainUpload ⟨["a.mp4", "b.mp4", "c.mp4"], []⟩
        ⟨Platform.tencent, "x", some ["a.mp4", "b.mp4", "c.mp4"], none, 0, none⟩
        ⟨fun _ => ("t", []), fun _ => false, fun i => decide (i = 1)⟩).1 = 2 ∧
    List.countP isRunEv (mainUpload ⟨["a.mp4", "b.mp4", "c.mp4"], []⟩
        ⟨Platform.tencent, "x", some ["a.mp4", "b.mp4", "c.mp4"], none, 0, none⟩
        ⟨fun _ => ("t", []), fun _ => false, fun i => decide (i = 1)⟩).1 = 2 ∧
    List.countP isDoneEv (mainUpload ⟨["a.mp4", "b.mp4", "c.mp4"], []⟩
        ⟨Platform.tencent, "x", some ["a.mp4", "b.mp4", "c.mp4"], none, 0, none⟩
        ⟨fun _ => ("t", []), fun _ => false, fun i => decide (i = 1)⟩).1 = 1 :=
  c3_job_failure_halts_batch ⟨["a.mp4", "b.mp4", "c.mp4"], []⟩
    ⟨Platform.tencent, "x", some ["a.mp4", "b.mp4", "c.mp4"], none, 0, none⟩
    ⟨fun _ => ("t", []), fun _ => false, fun i => decide (i = 1)⟩
    ["a.mp4", "b.mp4", "c.mp4"] Pub.immediate 1
    (by decide) (by decide) (by decide) (by decide) (by decide)
    (fun j hj => rfl)
    (fun j hj => by
      have hj0 : j = 0 := by omega
      subst hj0
      rfl)
    (by decide)

/-- C9 witness: with `publish_type = 0`, supplying the malformed schedule
`"garbage schedule"` produces exactly the run produced with no schedule at
all. -/
theorem c9_publish_type_zero_ignores_schedule_witness :
    mainUpload ⟨["a.mp4"], []⟩
        ⟨Platform.kuaishou, "x", some ["a.mp4"], none, 0, some "garbage schedule"⟩
        ⟨fun _ => ("t", []), fun _ => false, fun _ => false⟩ =
      mainUpload ⟨["a.mp4"], []⟩
        ⟨Platform.kuaishou, "x", some ["a.mp4"], none, 0, none⟩
        ⟨fun _ => ("t", []), fun _ => false, fun _ => false⟩ :=
  (c9_publish_type_zero_ignores_schedule ⟨["a.mp4"], []⟩
    ⟨Platform.kuaishou, "x", some ["a.mp4"], none, 0, none⟩
    ⟨fun _ => ("t", []), fun _ => false, fun _ => false⟩ rfl).1
    (some "garbage schedule") none

theorem lexLe_total (a : List Char) : ∀ b, lexLe a b = true ∨ lexLe b a = true := by
  induction a with
  | nil => intro b; left; rfl
  | cons x xs ih =>
    intro b
    cases b with
    | nil => right; rfl
    | cons y ys =>
      by_cases hxy : x = y
      · subst hxy
        simp only [lexLe, if_pos rfl]
        exact ih ys
      · simp only [lexLe, if_neg hxy, if_neg (Ne.symm hxy)]
        rcases lt_trichotomy x y with h | h | h
        · left; exact decide_eq_true h
        · exact absurd h hxy
        · right; exact decide_eq_true h

theorem lexLe_trans (a : List Char) :
    ∀ b c, lexLe a b = true → lexLe b c = true → lexLe a c = true := by
  induction a with
  | nil => intro b c h1 h2; rfl
  | cons x xs ih =>
    intro b c h1 h2
    cases b with
    | nil => simp [lexLe] at h1
    | cons y ys =>
      cases c with
      | nil => simp [lexLe] at h2
      | cons z zs =>
        simp only [lexLe] at h1 h2 ⊢
        by_cases hxy : x = y
        · subst hxy
          rw [if_pos rfl] at h1
          by_cases hyz : x = z
          · subst hyz
            rw [if_pos rfl] at h2 ⊢
            exact ih ys zs h1 h2
          · rw [if_neg hyz] at h2 ⊢
            exact h2
        · rw [if_neg hxy] at h1
          have hlt1 : x < y := of_decide_eq_true h1
          by_cases hyz : y = z
          · subst hyz
            rw [if_neg hxy]
            exact h1
          · rw [if_neg hyz] at h2
            have hlt2 : y < z := of_decide_eq_true h2
            have hxz : x < z := lt_trans hlt1 hlt2
            rw [if_neg (ne_of_lt hxz)]
            exact decide_eq_true hxz

instance : IsTotal String strLeProp := ⟨fun a b => lexLe_total a.toList b.toList⟩

instance : IsTrans String strLeProp :=
  ⟨fun a b c h1 h2 => lexLe_trans a.toList b.toList c.toList h1 h2⟩

theorem suffix_unique {e1 e2 l : List Char} (h1 : e1 <:+ l) (h2 : e2 <:+ l)
    (hlen : e1.length = e2.length) : e1 = e2 := by
  obtain ⟨u1, hu1⟩ := h1
  obtain ⟨u2, hu2⟩ := h2
  have h3 : u1 ++ e1 = u2 ++ e2 := hu1.trans hu2.symm
  have h4 : u1.length = u2.length := by
    have h5 := congrArg List.length h3
    simp only [List.length_append] at h5
    omega
  exact (List.append_inj h3 h4).2

theorem filter_or_perm {α : Type} (p q : α → Bool) (l : List α)
    (h : ∀ x ∈ l, ¬(p x = true ∧ q x = true)) :
    (l.filter p ++ l.filter q).Perm (l.filter (fun x => p x || q x)) := by
  induction l with
  | nil => simp
  | cons x t ih =>
    have ht : ∀ y ∈ t, ¬(p y = true ∧ q y = true) := fun y hy => h y (List.mem_cons_of_mem x hy)
    by_cases hp : p x = true
    · have hq : q x = false := by
        cases hqx : q x with
        | false => rfl
        | true => exact absurd ⟨hp, hqx⟩ (h x (List.mem_cons_self x t))
      simp only [List.filter_cons, hp, hq, Bool.true_or, if_pos, List.cons_append]
      exact (ih ht).cons x
    · have hp2 : p x = false := by simpa using hp
      by_cases hq : q x = true
      · simp only [List.filter_cons, hp2, hq, Bool.false_or]
        exact List.perm_middle.trans ((ih ht).cons x)
      · have hq2 : q x = false := by simpa using hq
        simp only [List.filter_cons, hp2, hq2, Bool.false_or]
        exact ih ht

theorem glob_union_perm (path : String) (l : List String) :
    ∀ (exts : List (List Char)), exts.Nodup →
      (∀ (f : String) (e1 e2 : List Char), e1 ∈ exts → e2 ∈ exts →
        strEndsWith f e1 = true → strEndsWith f e2 = true → e1 = e2) →
      ((exts.map (fun ext => l.filter (fun f => underDir path f && strEndsWith f ext))).flatten).Perm
        (l.filter (fun f => underDir path f && exts.any (fun e => strEndsWith f e))) := by
  intro exts
  induction exts with
  | nil =>
    intro _ _
    simp
  | cons e es ih =>
    intro hnd huniq
    simp only [List.map_cons, List.flatten_cons]
    have hdisj : ∀ f ∈ l, ¬((underDir path f && strEndsWith f e) = true ∧
        (underDir path f && es.any (fun e2 => strEndsWith f e2)) = true) := by
      rintro f hf ⟨h1, h2⟩
      have he1 := (Bool.and_eq_true_iff.mp h1).2
      obtain ⟨e2, he2m, he2e⟩ := List.any_eq_true.mp (Bool.and_eq_true_iff.mp h2).2
      have heq : e = e2 := huniq f e e2 (List.mem_cons_self _ _)
        (List.mem_cons_of_mem _ he2m) he1 he2e
      exact absurd (heq ▸ he2m) (List.nodup_cons.mp hnd).1
    have hih := ih (List.nodup_cons.mp hnd).2
      (fun f e1 e2 h1 h2 => huniq f e1 e2 (List.mem_cons_of_mem _ h1) (List.mem_cons_of_mem _ h2))
    have hstep := filter_or_perm (fun f => underDir path f && strEndsWith f e)
      (fun f => underDir path f && es.any (fun e2 => strEndsWith f e2)) l hdisj
    have hcongr : l.filter (fun f => (underDir path f && strEndsWith f e) ||
        (underDir path f && es.any (fun e2 => strEndsWith f e2))) =
        l.filter (fun f => underDir path f && (e :: es).any (fun e2 => strEndsWith f e2)) := by
      apply List.filter_congr
      intro f _
      simp [List.any_cons, Bool.and_or_distrib_left]
    exact ((hih.append_left (l.filter (fun f => underDir path f && strEndsWith f e))).trans
      hstep).trans (hcongr ▸ List.Perm.refl _)

theorem video_extensions_uniq (f : String) (e1 e2 : List Char)
    (h1 : e1 ∈ video_extensions) (h2 : e2 ∈ video_extensions)
    (hs1 : strEndsWith f e1 = true) (hs2 : strEndsWith f e2 = true) : e1 = e2 := by
  have hl : ∀ e ∈ video_extensions, e.length = 4 := by decide
  have hsuf1 : e1 <:+ f.toList := by
    rwa [← List.isSuffixOf_iff_suffix]
  have hsuf2 : e2 <:+ f.toList := by
    rwa [← List.isSuffixOf_iff_suffix]
  exact suffix_unique hsuf1 hsuf2 ((hl e1 h1).trans (hl e2 h2).symm)

/-- C4 counterexample: `"d/a.MP4"` is a file under the existing directory
`"d"` whose lowercased extension is in the set, yet `get_video_files`
returns nothing for the directory — the recursive glob is case-sensitive,
refuting the claim's "matched case-insensitively" for the directory
branch. -/
theorem c4_discoverer_counterexample :
    get_video_files ⟨["d/a.MP4"], ["d"]⟩ "d" = [] ∧
      "d/a.MP4" ∈ (FS.mk ["d/a.MP4"] ["d"]).files ∧
      underDir "d" "d/a.MP4" = true ∧
      video_extensions.contains (lowerL (suffixOfName (fileNameOf "d/a.MP4"))) = true := by
  refine ⟨by decide, by decide, by decide, by decide⟩

/-- C4 (amended): for an existing directory, `get_video_files` returns
exactly the files under it (recursively) whose names end, case-sensitively,
with one of the six lowercase extensions, sorted by full path string
ascending; for a single existing file it returns a one-element list when
the file's extension lowercased is in the set, and an empty list
otherwise — only the single-file branch is case-insensitive. -/
theorem c4_discoverer_amended (fs : FS) (path : String) :
    (fs.files.contains path = false →
      (get_video_files fs path).Perm
          (fs.files.filter (fun f => underDir path f &&
            video_extensions.any (fun e => strEndsWith f e))) ∧
        List.Sorted strLeProp (get_video_files fs path)) ∧
    (fs.files.contains path = true →
      get_video_files fs path =
        if video_extensions.contains (lowerL (suffixOfName (fileNameOf path))) then [path]
        else []) := by
  constructor
  · intro hnf
    unfold get_video_files
    rw [if_neg (by rw [hnf]; exact Bool.false_ne_true)]
    constructor
    · exact (List.perm_insertionSort strLeProp _).trans
        (glob_union_perm path fs.files video_extensions (by decide) video_extensions_uniq)
    · exact List.sorted_insertionSort strLeProp _
  · intro hf
    unfold get_video_files
    rw [if_pos hf]

/-- C4 witness: the directory listing of a mixed tree is exactly its
extension-matching files, sorted. -/
theorem c4_discoverer_amended_witness :
    (get_video_files ⟨["d/b.mp4", "d/sub/a.mov", "d/x.txt", "e/y.mp4"], ["d", "d/sub"]⟩
        "d").Perm
        ((FS.mk ["d/b.mp4", "d/sub/a.mov", "d/x.txt", "e/y.mp4"] ["d", "d/sub"]).files.filter
          (fun f => underDir "d" f && video_extensions.any (fun e => strEndsWith f e))) ∧
      List.Sorted strLeProp
        (get_video_files ⟨["d/b.mp4", "d/sub/a.mov", "d/x.txt", "e/y.mp4"], ["d", "d/sub"]⟩ "d") :=
  (c4_discoverer_amended ⟨["d/b.mp4", "d/sub/a.mov", "d/x.txt", "e/y.mp4"], ["d", "d/sub"]⟩ "d").1 (by decide)
